import Mathlib

/-!
# Verification of the OceanBase admin CLI result-presentation engine

Shallow embedding of the two Python source files `ob_admin_cli.py` and
`ob_gemini_v1.py`. Python strings are modelled as `List Char` (a Python
`str` is a sequence of Unicode code points, so `len`, slicing and
concatenation correspond to `List.length`, `take`/`drop` and `++`).
Machine integers from the environment (terminal widths) are modelled as
`Int`; Python's floor division `//` is `Int.fdiv`. Nullable database cell
values are modelled by the tagged variant `CellV`.
-/

/-- Python whitespace characters relevant to `str.split()` / `str.strip()`
(ASCII whitespace; the sanitizer has already replaced the only control
characters produced by database text before splitting). -/
def isWs (c : Char) : Bool :=
  c == ' ' || c == '\t' || c == '\n' || c == '\r' || c == '\x0b' || c == '\x0c'

/-- Model of Python `str.strip()`: drop leading and trailing whitespace. -/
def pyStrip (s : List Char) : List Char :=
  ((s.dropWhile isWs).reverse.dropWhile isWs).reverse

/-- Model of Python `str.lower()` (the strings the code lowercases are
compared against ASCII keywords, for which `Char.toLower` agrees). -/
def lowerStr (s : List Char) : List Char := s.map Char.toLower

/-- Model of the Python prefix slice `s[:k]`, including a negative `k`
(which counts from the end: `s[:k] = s[:max(0, len(s)+k)]`). -/
def pyTake (s : List Char) (k : Int) : List Char :=
  s.take (Int.toNat (if k < 0 then (s.length : Int) + k else k))

/-- Decimal digit character, as produced by Python's integer formatting. -/
def digitChar (n : Nat) : Char :=
  if n = 0 then '0' else if n = 1 then '1' else if n = 2 then '2'
  else if n = 3 then '3' else if n = 4 then '4' else if n = 5 then '5'
  else if n = 6 then '6' else if n = 7 then '7' else if n = 8 then '8' else '9'

/-- Accumulator loop for decimal rendering of a positive natural number. -/
def natDigitsAux : Nat → List Char → List Char
  | 0, acc => acc
  | n + 1, acc => natDigitsAux ((n + 1) / 10) (digitChar ((n + 1) % 10) :: acc)
decreasing_by exact Nat.div_lt_self (Nat.succ_pos n) (by omega)

/-- Model of Python `str(n)` for a natural number. -/
def natStr (n : Nat) : List Char :=
  if n = 0 then ['0'] else natDigitsAux n []

/-- Model of Python `str(n)` for an `int`. -/
def intStr (n : Int) : List Char :=
  if n < 0 then '-' :: natStr (-n).toNat else natStr n.toNat

/-- Tagged model of the nullable scalar cell values a `DictCursor` row can
hold (the spec's Cell data model, restricted to the kinds the claims
exercise: text, integer and null). -/
inductive CellV where
  | null
  | text (s : List Char)
  | intg (n : Int)
deriving DecidableEq

/-- Model of Python `str(value)` on a cell value (`str(None) = "None"`). -/
def strOf : CellV → List Char
  | .null => "None".data
  | .text s => s
  | .intg n => intStr n

/-! ## ob_admin_cli.py : adaptive_cell_width -/

/-- Embedding of `adaptive_cell_width(headers, min_w=24, max_w=80)` from
`ob_admin_cli.py`. The terminal-size query (with its 120 fallback) is the
Terminal Geometry Oracle; its answer is passed in as `cols`. -/
def adaptive_cell_width (numHeaders : Nat) (cols : Int) : Int :=
  let n : Int := max 1 (numHeaders : Int)
  let usable : Int := max 40 (cols - 16)
  max 24 (min 80 (Int.fdiv usable n))

/-! ## ob_admin_cli.py : the cell sanitizer `clean` inside print_table -/

/-- The character replacement step of `clean`:
`s.replace("\r"," ").replace("\n"," ").replace("\t"," ")`. -/
def replCtl (s : List Char) : List Char :=
  s.map fun c => if c == '\r' || c == '\n' || c == '\t' then ' ' else c

/-- Model of Python `str.split()` (split on whitespace runs, dropping empty
tokens). -/
def pySplit (s : List Char) : List (List Char) :=
  match h : s.dropWhile isWs with
  | [] => []
  | c :: cs =>
      (c :: cs.takeWhile (fun x => !isWs x)) ::
        pySplit (cs.dropWhile (fun x => !isWs x))
termination_by s.length
decreasing_by
  have h1 : (s.dropWhile isWs).length ≤ s.length :=
    (List.dropWhile_sublist isWs).length_le
  rw [h] at h1
  have h2 : (cs.dropWhile (fun x => !isWs x)).length ≤ cs.length :=
    (List.dropWhile_sublist _).length_le
  simp only [List.length_cons] at h1
  omega

/-- Model of Python `" ".join(tokens)`. -/
def joinSpace : List (List Char) → List Char
  | [] => []
  | [t] => t
  | t :: u :: ts => t ++ ' ' :: joinSpace (u :: ts)

/-- The whitespace-collapsing step of `clean`: `" ".join(s.split())`. -/
def collapse (s : List Char) : List Char := joinSpace (pySplit s)

/-- The ellipsis marker appended by `clean` on truncation. -/
def ellChar : Char := '…'

/-- Embedding of the nested `clean(val)` of `print_table` in
`ob_admin_cli.py`, with the captured `max_width` made an explicit
parameter. The strict-utf-8 re-encoding branch is the identity here: every
Lean `List Char` already denotes encodable Unicode text, so the
`UnicodeEncodeError` fallback is unreachable in the model. -/
def clean (v : CellV) (maxWidth : Nat) : List Char :=
  match v with
  | .null => []
  | v =>
    let s := collapse (replCtl (strOf v))
    if maxWidth < s.length then pyTake s ((maxWidth : Int) - 1) ++ [ellChar] else s

/-- The sanitized string before the length check of `clean` (the spec's
unbounded `sanitize(x)`). -/
def cleanNoLimit (v : CellV) : List Char :=
  match v with
  | .null => []
  | v => collapse (replCtl (strOf v))

/-! ## ob_admin_cli.py : save_csv (Export Writer) -/

/-- True when Python's `csv` writer (QUOTE_MINIMAL) must quote a field:
it contains the delimiter, the quote character, or a line-terminator
character. -/
def needsQuote (f : List Char) : Bool :=
  f.any fun c => c == ',' || c == '"' || c == '\r' || c == '\n'

/-- Quote-doubling escape used inside a quoted CSV field. -/
def escQ : List Char → List Char
  | [] => []
  | c :: cs => if c == '"' then '"' :: '"' :: escQ cs else c :: escQ cs

/-- One serialized CSV field under QUOTE_MINIMAL. -/
def csvField (f : List Char) : List Char :=
  if needsQuote f then '"' :: (escQ f ++ ['"']) else f

/-- One serialized CSV record: fields joined by the `,` delimiter. -/
def csvRecord : List (List Char) → List Char
  | [] => []
  | [f] => csvField f
  | f :: g :: fs => csvField f ++ ',' :: csvRecord (g :: fs)

/-- The csv module's default line terminator (kept verbatim because
`save_csv` opens the file with `newline=""`). -/
def crlf : List Char := ['\r', '\n']

/-- Serialized records, each followed by CRLF. -/
def csvLines : List (List (List Char)) → List Char
  | [] => []
  | r :: rs => csvRecord r ++ crlf ++ csvLines rs

/-- The byte-order mark written by the `utf-8-sig` encoding of `save_csv`. -/
def bomChar : Char := '﻿'

/-- Embedding of `save_csv(rows)` from `ob_admin_cli.py`: the text content
of the written file. A row dict with the header keys in header order is
represented positionally; a cell is `none` for SQL NULL (written as the
empty field, per `{k: "" if v is None else v ...}`) and `some s` for a
value whose Python `str` form is `s`. -/
def save_csv (headers : List (List Char)) (rows : List (List (Option (List Char)))) :
    List Char :=
  bomChar :: csvLines (headers :: rows.map (fun r => r.map (fun c => c.getD [])))

/-! ## Spec-side CSV reader for the round-trip claim

Modelled from the spec: re-parsing the flat file uses the standard reading
of the delimited format (comma delimiter, double-quote quoting with
doubled-quote escapes, CRLF record ends, leading encoding marker ignored);
the repository itself contains no reader. Parsing is fuel-indexed; the fuel
supplied by `parseCsv` is shown sufficient for every written file. -/

/-- True at a character that ends an unquoted field. -/
def endField (c : Char) : Bool := c == ',' || c == '\r' || c == '\n'

/-- Parse the body of a quoted field, after its opening quote: doubled
quotes denote a literal quote, a lone quote closes the field. -/
def parseQ : Nat → List Char → List Char × List Char
  | 0, s => ([], s)
  | f + 1, s =>
      match s with
      | [] => ([], [])
      | c :: t =>
          if c == '"' then
            match t with
            | [] => ([], [])
            | t0 :: t2 =>
                if t0 == '"' then
                  let p := parseQ f t2
                  ('"' :: p.1, p.2)
                else ([], t)
          else
            let p := parseQ f t
            (c :: p.1, p.2)

/-- Parse one field: quoted if it starts with a quote, else the run of
characters up to a delimiter or record end. -/
def parseField (fuel : Nat) (s : List Char) : List Char × List Char :=
  match s with
  | [] => ([], [])
  | c :: t =>
      if c == '"' then parseQ fuel t
      else (s.takeWhile (fun x => !endField x), s.dropWhile (fun x => !endField x))

/-- Parse one record: fields separated by commas, ended by CRLF or the end
of input. -/
def parseRec : Nat → List Char → List (List Char) × List Char
  | 0, s => ([], s)
  | f + 1, s =>
      let p := parseField f s
      match p.2 with
      | [] => ([p.1], [])
      | c :: t =>
          if c == ',' then
            let q := parseRec f t
            (p.1 :: q.1, q.2)
          else if c == '\r' then
            match t with
            | [] => ([p.1], c :: t)
            | c2 :: t2 => if c2 == '\n' then ([p.1], t2) else ([p.1], c :: t)
          else ([p.1], c :: t)

/-- Parse all records until the input is exhausted. -/
def parseRecs : Nat → List Char → List (List (List Char))
  | 0, _ => []
  | f + 1, s =>
      match s with
      | [] => []
      | c :: t =>
          let p := parseRec f (c :: t)
          p.1 :: parseRecs f p.2

/-- Strip a leading byte-order mark, as utf-8-sig readers do. -/
def stripBom : List Char → List Char
  | c :: t => if c == bomChar then t else c :: t
  | [] => []

/-- The spec-side CSV reader. The fuel `2 * length + 2` is proved
sufficient on every file `save_csv` writes. -/
def parseCsv (s : List Char) : List (List (List Char)) :=
  let t := stripBom s
  parseRecs (2 * t.length + 2) t

/-- Checks the local shape of whitespace inside a string: every whitespace
character is a plain space and is followed by a non-whitespace character
(so no trailing whitespace and no whitespace runs). Used to characterize
the strings the sanitizer's collapsing step leaves unchanged. -/
def canonAux : List Char → Bool
  | [] => true
  | [c] => !isWs c
  | c :: d :: cs => (if isWs c then c == ' ' && !isWs d else true) && canonAux (d :: cs)

/-- A string fixed by the whitespace-collapsing step: no leading
whitespace, and `canonAux` throughout. -/
def canonical : List Char → Bool
  | [] => true
  | c :: cs => !isWs c && canonAux (c :: cs)

/-- Fuel needed by `parseRec` on one written record with these fields. -/
def recFuel (fs : List (List Char)) : Nat :=
  (fs.map (fun t => t.length + 2)).sum

/-- Fuel needed by `parseRecs` on a whole written file. -/
def fileFuel (rs : List (List (List Char))) : Nat :=
  (rs.map (fun fs => recFuel fs + 1)).sum

/-! ## ob_admin_cli.py : paginate (Pagination Controller) -/

/-- The four inputs the pagination prompt distinguishes: `n`, `p`, `s`,
and anything else except `q` (which leaves the loop). -/
inductive PgCmd where
  | nxt
  | prv
  | sv
  | other
deriving DecidableEq

/-- One iteration of the `paginate` loop of `ob_admin_cli.py`, restricted
to its effect on the `page` counter. `total` is `len(rows)` and the
branch conditions are verbatim: `n` advances unless
`end >= total` with `end = min(start + page_size, total)`; `p` retreats
unless `page == 0`; `s` and invalid input leave `page` unchanged. -/
def pgStep (total pageSize page : Nat) : PgCmd → Nat
  | .nxt => if min (page * pageSize + pageSize) total ≥ total then page else page + 1
  | .prv => if page = 0 then page else page - 1
  | .sv => page
  | .other => page

/-- The `page` counter after a finite sequence of pagination commands,
starting from the initial page 0. -/
def pgRun (total pageSize : Nat) (cmds : List PgCmd) : Nat :=
  cmds.foldl (pgStep total pageSize) 0

/-- The slice `rows[start:end]` displayed by one iteration of `paginate`. -/
def pageSlice {α : Type} (rows : List α) (pageSize page : Nat) : List α :=
  let start := page * pageSize
  let stop := min (start + pageSize) rows.length
  (rows.drop start).take (stop - start)

/-- One iteration of `paginate` with its export effect made explicit:
the `s` branch calls `save_csv(rows)` on the whole row list and leaves the
page unchanged; every other branch exports nothing. -/
def paginateStep {α : Type} (rows : List α) (pageSize page : Nat) (c : PgCmd) :
    Nat × Option (List α) :=
  match c with
  | .sv => (page, some rows)
  | c => (pgStep rows.length pageSize page c, none)

/-! ## ob_admin_cli.py : the dangerous-statement gate in main -/

/-- The fixed tuple `DANGER` of space-delimited keywords from `main`. -/
def DANGER : List (List Char) :=
  [" drop ".data, " truncate ".data, " delete ".data,
   " alter ".data, " shutdown ".data, " kill ".data]

/-- Model of the Python substring test `k in s`. -/
def isSubstr (k : List Char) : List Char → Bool
  | [] => k.isEmpty
  | c :: t => k.isPrefixOf (c :: t) || isSubstr k t

/-- Embedding of the gate condition
`any(k in low for k in DANGER)` with `low = " " + sql.lower() + " "`. -/
def dangerous (sql : List Char) : Bool :=
  DANGER.any fun k => isSubstr k (' ' :: (lowerStr sql ++ [' ']))

/-- Embedding of the confirmation test: the gate proceeds only when
`input(...).strip().lower() == "yes"`. -/
def affirm (resp : List Char) : Bool :=
  lowerStr (pyStrip resp) == "yes".data

/-- Whether one menu-loop iteration reaches `run_query`: a flagged
statement is executed only on an affirmative response, an unflagged one
unconditionally (no prompt is shown, so `resp` is ignored). -/
def gateExecutes (sql resp : List Char) : Bool :=
  if dangerous sql then affirm resp else true

/-- Number of statements the iteration executes (0 on cancellation). -/
def executedCount (sql resp : List Char) : Nat :=
  if gateExecutes sql resp then 1 else 0

/-- Word characters for the spec's "whole word" reading (letters, digits
and underscore, the usual word-boundary alphabet). -/
def wordChar (c : Char) : Bool := c.isAlphanum || c == '_'

/-- The claim's own matching notion, for comparison with the code's:
`kw` occurs in the lowercased statement with no word character adjacent
on either side. -/
def ContainsWholeWord (kw s : List Char) : Prop :=
  ∃ a b, lowerStr s = a ++ kw ++ b ∧
    (∀ c, a.getLast? = some c → wordChar c = false) ∧
    (∀ c, b.head? = some c → wordChar c = false)

/-! ## ob_admin_cli.py : run_query -/

/-- A row as produced by `DictCursor`: column name to cell value, in
select order. -/
def RowD : Type := List (List Char × CellV)

/-- The two outcomes of `cur.fetchall()` the code distinguishes: a list of
rows, or the driver's `InterfaceError` signalling that the statement
produced no result set (in which case `cur.rowcount` is available). -/
inductive FetchOutcome where
  | fetched (rows : List RowD)
  | interfaceError (rowcount : Int)

/-- Embedding of `run_query` from `ob_admin_cli.py`, as a function of the
fetch outcome: the `InterfaceError` is absorbed into one synthetic row
`{"affected_rows": cur.rowcount}`, so the caller always receives a list. -/
def run_query : FetchOutcome → List RowD
  | .fetched rows => rows
  | .interfaceError rc => [[("affected_rows".data, CellV.intg rc)]]

/-! ## ob_gemini_v1.py : layout decision in execute_and_print_query -/

/-- Rendering layouts (the spec's LayoutDecision). -/
inductive LayoutDecision where
  | horizontal
  | vertical
deriving DecidableEq

/-- The fixed column threshold of `execute_and_print_query`. -/
def MAX_HORIZONTAL_COLS : Nat := 10

/-- Embedding of the per-cell test
`isinstance(cell, str) and '\n' in cell`. -/
def cellIsStrWithNl : CellV → Bool
  | .text s => s.contains '\n'
  | _ => false

/-- The per-row generator `any(... for cell in row)`. -/
def rowHasNl (row : List CellV) : Bool := row.any cellIsStrWithNl

/-- The `for row in results: ... break` scan, stopping at the first row
containing a matching cell. -/
def scanRowsForNl : List (List CellV) → Bool
  | [] => false
  | row :: rest => if rowHasNl row then true else scanRowsForNl rest

/-- Embedding of the layout decision of `execute_and_print_query`:
`is_too_wide` first, the newline scan only when not too wide, then the
route `if is_too_wide or has_newlines: vertical else horizontal`. The
decision is taken once per result set, before any rendering. -/
def layout_decision (headers : List (List Char)) (results : List (List CellV)) :
    LayoutDecision :=
  let is_too_wide : Bool := headers.length > MAX_HORIZONTAL_COLS
  let has_newlines : Bool := if is_too_wide then false else scanRowsForNl results
  if is_too_wide || has_newlines then .vertical else .horizontal

/-! ## ob_gemini_v1.py : print_vertical and print_horizontal -/

/-- Model of Python `str.rjust`. -/
def rjust (w : Nat) (s : List Char) : List Char :=
  List.replicate (w - s.length) ' ' ++ s

/-- The `max(len(str(h)) for h in headers)` with the `ValueError` fallback
to 0 on an empty header list. -/
def maxHeaderLen (headers : List (List Char)) : Nat :=
  (headers.map List.length).foldr max 0

/-- The record separator line of `print_vertical`. -/
def rowSepLine (i : Nat) : List Char :=
  "***************************[ Row ".data ++ natStr (i + 1) ++
    " ]***************************".data

/-- The per-column lines of one record in `print_vertical`
(`header.rjust(maxlen) : value`, headers and cells in step). -/
def recordLines (maxLen : Nat) (headers : List (List Char)) (row : List CellV) :
    List (List Char) :=
  (headers.zip row).map fun hv => rjust maxLen hv.1 ++ " : ".data ++ strOf hv.2

/-- Embedding of `print_vertical(results, headers)` from `ob_gemini_v1.py`,
as the list of printed lines. -/
def print_vertical (results : List (List CellV)) (headers : List (List Char)) :
    List (List Char) :=
  let maxLen := maxHeaderLen headers
  [[]] ++
    (results.enum.map fun ir => rowSepLine ir.1 :: recordLines maxLen headers ir.2).flatten ++
    [[], "(".data ++ natStr results.length ++ " row(s) returned)".data, []]

/-- The per-cell cleaning of `print_horizontal`: string cells get their
`\n`, `\r`, `\t` replaced by spaces; other cells pass through. -/
def clean_h_cell : CellV → CellV
  | .text s => .text (s.map fun c => if c == '\n' || c == '\r' || c == '\t' then ' ' else c)
  | c => c

/-- The row-by-row cleaning pass of `print_horizontal`. -/
def clean_h (results : List (List CellV)) : List (List CellV) :=
  results.map (fun r => r.map clean_h_cell)

/-- The `available_width` heuristic of `print_horizontal`
(`terminal_width - num_columns * 3 - 1`). -/
def gemini_available_width (numColumns : Nat) (terminalWidth : Int) : Int :=
  terminalWidth - (numColumns : Int) * 3 - 1

/-- The clamped per-column width `min(40, max(10, available // n))` of
`print_horizontal`. -/
def gemini_max_col_width (numColumns : Nat) (terminalWidth : Int) : Int :=
  min 40 (max 10 (Int.fdiv (gemini_available_width numColumns terminalWidth) (numColumns : Int)))

/-- The `maxcolwidths` list `[max_col_width] * num_columns`. -/
def gemini_max_col_widths_list (numColumns : Nat) (terminalWidth : Int) : List Int :=
  List.replicate numColumns (gemini_max_col_width numColumns terminalWidth)

/-- Embedding of `print_horizontal` from `ob_gemini_v1.py`. The external
`tabulate` call is a parameter returning either rendered lines or an
error message; the `except` branch prints the two diagnostic lines and
falls back to `print_vertical` on the original `results` and `headers`.
The function is total: no error escapes to the caller. -/
def print_horizontal
    (tabulateB : List (List CellV) → List (List Char) → List Int →
      Except (List Char) (List (List Char)))
    (results : List (List CellV)) (headers : List (List Char))
    (terminalWidth : Int) : List (List Char) :=
  let cleaned := clean_h results
  let widths := gemini_max_col_widths_list headers.length terminalWidth
  match tabulateB cleaned headers widths with
  | .ok outLines =>
      outLines ++ [[], "(".data ++ natStr results.length ++ " row(s) returned)".data, []]
  | .error e =>
      ("❌ [Tabulate 渲染错误]: ".data ++ e) ::
        "... 渲染失败，尝试降级到垂直输出 ...".data ::
        print_vertical results headers

/-! # Theorems -/

/-! ## Helper lemmas about decimal rendering -/

theorem digitChar_ne_nl (n : Nat) : digitChar n ≠ '\n' := by
  unfold digitChar
  repeat' split
  all_goals decide

theorem nl_not_mem_natDigitsAux :
    ∀ (n : Nat) (acc : List Char), '\n' ∉ acc → '\n' ∉ natDigitsAux n acc := by
  intro n
  induction n using Nat.strong_induction_on with
  | _ n ih =>
    intro acc hacc
    match n with
    | 0 => simpa [natDigitsAux] using hacc
    | m + 1 =>
      rw [natDigitsAux]
      refine ih ((m + 1) / 10) (Nat.div_lt_self (Nat.succ_pos m) (by omega)) _ ?_
      intro hmem
      rcases List.mem_cons.mp hmem with h | h
      · exact digitChar_ne_nl _ h.symm
      · exact hacc h

theorem nl_not_mem_natStr (n : Nat) : '\n' ∉ natStr n := by
  unfold natStr
  split
  · decide
  · exact nl_not_mem_natDigitsAux n [] (by simp)

theorem nl_not_mem_intStr (n : Int) : '\n' ∉ intStr n := by
  unfold intStr
  split
  · intro h
    rcases List.mem_cons.mp h with h | h
    · exact absurd h.symm (by decide)
    · exact nl_not_mem_natStr _ h
  · exact nl_not_mem_natStr _

/-- The code's per-cell test agrees with the spec's "the cell's raw text
form contains a line feed" on every modelled cell kind. -/
theorem cellIsStrWithNl_iff_nl_mem_strOf (c : CellV) :
    cellIsStrWithNl c = true ↔ '\n' ∈ strOf c := by
  cases c with
  | null => decide
  | text s => simp [cellIsStrWithNl, strOf, List.contains]
  | intg n =>
    simp only [cellIsStrWithNl, strOf]
    constructor
    · intro h; cases h
    · intro h; exact absurd h (nl_not_mem_intStr n)

theorem scanRowsForNl_eq_any (results : List (List CellV)) :
    scanRowsForNl results = results.any rowHasNl := by
  induction results with
  | nil => rfl
  | cons r rs ih =>
    rw [scanRowsForNl, List.any_cons]
    split <;> simp_all

/-! ## C2 : layout decision policy -/

/-- Unfolding of the layout decision as nested conditionals. -/
theorem layout_decision_eq (headers : List (List Char)) (results : List (List CellV)) :
    layout_decision headers results =
      if headers.length > MAX_HORIZONTAL_COLS then .vertical
      else if scanRowsForNl results then .vertical else .horizontal := by
  unfold layout_decision
  by_cases h : headers.length > MAX_HORIZONTAL_COLS
  · simp [h]
  · simp [h]

/-- Claim C2: a result set with more than 10 headers is laid out
vertically regardless of content; with at most 10 headers the layout is
vertical exactly when some cell's raw text form contains a line feed
(horizontal otherwise); and the row scan is insensitive to everything
after the first matching row. -/
theorem layout_decision_policy (headers : List (List Char)) (results : List (List CellV)) :
    (headers.length > MAX_HORIZONTAL_COLS → layout_decision headers results = .vertical)
    ∧ (headers.length ≤ MAX_HORIZONTAL_COLS →
        (layout_decision headers results = .vertical ↔
          ∃ row ∈ results, ∃ c ∈ row, '\n' ∈ strOf c))
    ∧ (∀ pre row post, rowHasNl row = true →
        scanRowsForNl (pre ++ row :: post) = true) := by
  refine ⟨?_, ?_, ?_⟩
  · intro h
    rw [layout_decision_eq, if_pos h]
  · intro h
    rw [layout_decision_eq, if_neg (Nat.not_lt.mpr h)]
    rw [scanRowsForNl_eq_any]
    constructor
    · intro hv
      by_cases ha : results.any rowHasNl = true
      · rw [List.any_eq_true] at ha
        obtain ⟨row, hrow, hr⟩ := ha
        rw [rowHasNl, List.any_eq_true] at hr
        obtain ⟨c, hc, hcnl⟩ := hr
        exact ⟨row, hrow, c, hc, (cellIsStrWithNl_iff_nl_mem_strOf c).mp hcnl⟩
      · rw [Bool.not_eq_true] at ha
        rw [ha] at hv
        simp at hv
    · rintro ⟨row, hrow, c, hc, hcnl⟩
      have : results.any rowHasNl = true := by
        rw [List.any_eq_true]
        refine ⟨row, hrow, ?_⟩
        rw [rowHasNl, List.any_eq_true]
        exact ⟨c, hc, (cellIsStrWithNl_iff_nl_mem_strOf c).mpr hcnl⟩
      rw [this]
      simp
  · intro pre row post hr
    induction pre with
    | nil => simp [scanRowsForNl, hr]
    | cons r rs ih =>
      rw [List.cons_append, scanRowsForNl]
      split
      · rfl
      · exact ih

/-- Witness for C2 at concrete inputs: an 11-header set is vertical, a
2-header set with a line feed in a cell is vertical, and the same set
without line feeds is horizontal. -/
theorem layout_decision_policy_witness :
    (List.replicate 11 ['h']).length > MAX_HORIZONTAL_COLS
    ∧ layout_decision (List.replicate 11 ['h']) [] = .vertical
    ∧ (['a'] :: [['b']]).length ≤ MAX_HORIZONTAL_COLS
    ∧ (layout_decision [['a'], ['b']] [[.text ['x', '\n'], .null]] = .vertical ↔
        ∃ row ∈ [[CellV.text ['x', '\n'], CellV.null]], ∃ c ∈ row, '\n' ∈ strOf c)
    ∧ (layout_decision [['a'], ['b']] [[.text ['x'], .intg 7]] = .vertical ↔
        ∃ row ∈ [[CellV.text ['x'], CellV.intg 7]], ∃ c ∈ row, '\n' ∈ strOf c) := by
  refine ⟨by decide, (layout_decision_policy _ _).1 (by decide),
    by decide, ((layout_decision_policy _ _).2).1 (by decide),
    ((layout_decision_policy _ _).2).1 (by decide)⟩

/-! ## C3 : column width allocator -/

/-- Claim C3: both allocators return one uniform per-column width clamped
into their bounds for every header count and every terminal width,
including widths below the overhead; the bounds satisfy the spec's
ranges. -/
theorem column_width_allocator_bounds (numHeaders : Nat) (colsA termW : Int)
    (hn : 1 ≤ numHeaders) :
    (24 ≤ adaptive_cell_width numHeaders colsA ∧ adaptive_cell_width numHeaders colsA ≤ 80)
    ∧ (10 ≤ gemini_max_col_width numHeaders termW ∧ gemini_max_col_width numHeaders termW ≤ 40)
    ∧ gemini_max_col_widths_list numHeaders termW =
        List.replicate numHeaders (gemini_max_col_width numHeaders termW)
    ∧ (∀ w ∈ gemini_max_col_widths_list numHeaders termW,
        w = gemini_max_col_width numHeaders termW)
    ∧ ((10 : Int) ≤ 24 ∧ (24 : Int) ≤ 80 ∧ (40 : Int) ≤ 80 ∧ (10 : Int) ≤ 40) := by
  have ha : adaptive_cell_width numHeaders colsA =
      max 24 (min 80 (Int.fdiv (max 40 (colsA - 16)) (max 1 (numHeaders : Int)))) := rfl
  have hg : gemini_max_col_width numHeaders termW =
      min 40 (max 10 (Int.fdiv (gemini_available_width numHeaders termW) (numHeaders : Int))) := rfl
  refine ⟨?_, ?_, rfl, ?_, by norm_num⟩
  · rw [ha]
    exact ⟨le_max_left _ _, max_le (by norm_num) (min_le_left _ _)⟩
  · rw [hg]
    exact ⟨le_min (by norm_num) (le_max_left _ _), min_le_left _ _⟩
  · intro w hw
    exact List.eq_of_mem_replicate hw

/-- Witness for C3 at concrete inputs (3 headers, an 80-column terminal
for the admin tool, a 10-column terminal far below the overhead for the
gemini tool). -/
theorem column_width_allocator_bounds_witness :
    1 ≤ 3
    ∧ (24 ≤ adaptive_cell_width 3 80 ∧ adaptive_cell_width 3 80 ≤ 80)
    ∧ (10 ≤ gemini_max_col_width 3 10 ∧ gemini_max_col_width 3 10 ≤ 40) := by
  refine ⟨by decide, (column_width_allocator_bounds 3 80 10 (by decide)).1,
    (column_width_allocator_bounds 3 80 10 (by decide)).2.1⟩

/-! ## C10 : run_query absorbs the no-result-set signal -/

/-- Claim C10: `run_query` always hands its caller a list of row dicts:
a fetched result set is returned as is, and the driver's no-result-set
`InterfaceError` is absorbed into exactly one synthetic row
`{"affected_rows": cursor.rowcount}`. -/
theorem run_query_total_list :
    (∀ rows, run_query (.fetched rows) = rows)
    ∧ (∀ rc, run_query (.interfaceError rc) =
          [[("affected_rows".data, CellV.intg rc)]]
        ∧ (run_query (.interfaceError rc)).length = 1) :=
  ⟨fun _ => rfl, fun _ => ⟨rfl, rfl⟩⟩

/-! ## C7 : render-failure fallback -/

/-- Claim C7: whenever the formatting backend fails on a page,
`print_horizontal` renders the same rows and headers through
`print_vertical` after the two diagnostic lines, and returns normally
(the function is total, so neither the enclosing menu loop nor the
session aborts). -/
theorem render_failure_fallback
    (tabulateB : List (List CellV) → List (List Char) → List Int →
      Except (List Char) (List (List Char)))
    (results : List (List CellV)) (headers : List (List Char))
    (terminalWidth : Int) (e : List Char)
    (h : tabulateB (clean_h results) headers
        (gemini_max_col_widths_list headers.length terminalWidth) = .error e) :
    print_horizontal tabulateB results headers terminalWidth =
      ("❌ [Tabulate 渲染错误]: ".data ++ e) ::
        "... 渲染失败，尝试降级到垂直输出 ...".data ::
        print_vertical results headers := by
  simp only [print_horizontal]
  rw [h]

/-- Witness for C7: a backend that always fails makes `print_horizontal`
fall back to the vertical rendering of the same page. -/
theorem render_failure_fallback_witness :
    print_horizontal (fun _ _ _ => .error "boom".data)
        [[CellV.text ['x'], CellV.intg 3]] [['a'], ['b']] 80 =
      ("❌ [Tabulate 渲染错误]: ".data ++ "boom".data) ::
        "... 渲染失败，尝试降级到垂直输出 ...".data ::
        print_vertical [[CellV.text ['x'], CellV.intg 3]] [['a'], ['b']] :=
  render_failure_fallback _ _ _ _ _ rfl

/-! ## C9 : export inside pagination -/

/-- Claim C9: the `s` command hands the Export Writer the entire row list,
not the displayed slice, and leaves the page counter unchanged; no other
command exports anything. -/
theorem export_whole_result_set {α : Type} (rows : List α) (pageSize page : Nat) :
    (paginateStep rows pageSize page .sv).2 = some rows
    ∧ (paginateStep rows pageSize page .sv).1 = page
    ∧ ((paginateStep rows pageSize page .sv).2.getD []).length = rows.length
    ∧ (∀ c, c ≠ .sv → (paginateStep rows pageSize page c).2 = none) := by
  refine ⟨rfl, rfl, rfl, ?_⟩
  intro c hc
  cases c with
  | nxt => rfl
  | prv => rfl
  | sv => exact absurd rfl hc
  | other => rfl

/-! ## Sanitizer infrastructure : whitespace collapsing -/

theorem dropWhile_head_false {α : Type} (p : α → Bool) :
    ∀ {l : List α} {x : α} {xs : List α}, l.dropWhile p = x :: xs → p x = false := by
  intro l
  induction l with
  | nil => intro x xs h; cases h
  | cons c t ih =>
    intro x xs h
    rw [List.dropWhile_cons] at h
    split at h
    · exact ih h
    · rename_i hc
      injection h with h1 h2
      subst h1
      simpa using hc

theorem takeWhile_eq_self_of_dropWhile_nil {α : Type} {p : α → Bool} {l : List α}
    (h : l.dropWhile p = []) : l.takeWhile p = l := by
  have hh := List.takeWhile_append_dropWhile (p := p) (l := l)
  rw [h, List.append_nil] at hh
  exact hh

theorem pySplit_eq_nil (s : List Char) (h : s.dropWhile isWs = []) :
    pySplit s = [] := by
  rw [pySplit.eq_def]
  split
  · rfl
  · rename_i c cs heq
    rw [heq] at h
    cases h

theorem pySplit_nil : pySplit [] = [] :=
  pySplit_eq_nil [] rfl

theorem pySplit_eq_cons (s : List Char) (c : Char) (cs : List Char)
    (h : s.dropWhile isWs = c :: cs) :
    pySplit s = (c :: cs.takeWhile (fun x => !isWs x)) ::
      pySplit (cs.dropWhile (fun x => !isWs x)) := by
  rw [pySplit.eq_def]
  split
  · rename_i heq
    rw [heq] at h
    cases h
  · rename_i c' cs' heq
    rw [heq] at h
    injection h with h1 h2
    subst h1
    subst h2
    rfl

theorem pySplit_dropWhile (s : List Char) :
    pySplit s = pySplit (s.dropWhile isWs) := by
  cases hd : s.dropWhile isWs with
  | nil => rw [pySplit_eq_nil s hd, pySplit_nil]
  | cons c cs =>
    have hc : isWs c = false := dropWhile_head_false isWs hd
    have h2 : (c :: cs).dropWhile isWs = c :: cs := by
      rw [List.dropWhile_cons, if_neg (by simp [hc])]
    rw [pySplit_eq_cons s c cs hd, pySplit_eq_cons (c :: cs) c cs h2]

/-- Every token Python `split()` produces is nonempty and free of
whitespace. -/
theorem pySplit_tokens :
    ∀ (n : Nat) (s : List Char), s.length ≤ n →
      ∀ t ∈ pySplit s, t ≠ [] ∧ ∀ c ∈ t, isWs c = false := by
  intro n
  induction n with
  | zero =>
    intro s hs t ht
    have : s = [] := List.eq_nil_of_length_eq_zero (Nat.le_zero.mp hs)
    subst this
    rw [pySplit_nil] at ht
    cases ht
  | succ n ih =>
    intro s hs t ht
    cases hd : s.dropWhile isWs with
    | nil =>
      rw [pySplit_eq_nil s hd] at ht
      cases ht
    | cons c cs =>
      rw [pySplit_eq_cons s c cs hd] at ht
      have hlen : (c :: cs).length ≤ s.length :=
        (List.dropWhile_sublist isWs).length_le.trans_eq' (by rw [hd])
      rcases List.mem_cons.mp ht with rfl | hmem
      · refine ⟨by simp, ?_⟩
        intro x hx
        rcases List.mem_cons.mp hx with rfl | hx
        · exact dropWhile_head_false isWs hd
        · simpa using List.mem_takeWhile_imp hx
      · refine ih (cs.dropWhile (fun x => !isWs x)) ?_ t hmem
        have h1 : (cs.dropWhile (fun x => !isWs x)).length ≤ cs.length :=
          (List.dropWhile_sublist _).length_le
        simp only [List.length_cons] at hlen
        omega

theorem canonAux_cons_cons (c d : Char) (cs : List Char) :
    canonAux (c :: d :: cs) =
      ((if isWs c then c == ' ' && !isWs d else true) && canonAux (d :: cs)) := rfl

theorem canonAux_cons_of_nonWs {c : Char} {l : List Char}
    (hc : isWs c = false) (hl : canonAux l = true) : canonAux (c :: l) = true := by
  cases l with
  | nil => simp [canonAux, hc]
  | cons d cs => rw [canonAux_cons_cons, hc]; simpa using hl

theorem canonAux_of_all_nonWs :
    ∀ (l : List Char), (∀ c ∈ l, isWs c = false) → canonAux l = true := by
  intro l
  induction l with
  | nil => intro _; rfl
  | cons c cs ih =>
    intro h
    exact canonAux_cons_of_nonWs (h c (by simp))
      (ih fun x hx => h x (List.mem_cons_of_mem c hx))

theorem canonAux_tail {x : Char} {l : List Char}
    (h : canonAux (x :: l) = true) : canonAux l = true := by
  cases l with
  | nil => rfl
  | cons d cs =>
    rw [canonAux_cons_cons, Bool.and_eq_true] at h
    exact h.2

theorem canonAux_append_right :
    ∀ (xs l : List Char), canonAux (xs ++ l) = true → canonAux l = true := by
  intro xs
  induction xs with
  | nil => intro l h; exact h
  | cons c cs ih => intro l h; exact ih l (canonAux_tail h)

theorem canonAux_ws_cons {r : Char} {l : List Char}
    (h : canonAux (r :: l) = true) (hr : isWs r = true) :
    r = ' ' ∧ ∃ b l', l = b :: l' ∧ isWs b = false := by
  cases l with
  | nil =>
    exfalso
    have : (!isWs r) = true := h
    rw [hr] at this
    cases this
  | cons b l' =>
    rw [canonAux_cons_cons, hr, Bool.and_eq_true] at h
    simp only [if_true] at h
    have h1 := h.1
    rw [Bool.and_eq_true] at h1
    refine ⟨by simpa using h1.1, b, l', rfl, by simpa using h1.2⟩

theorem canonAux_ws_eq_space :
    ∀ (l : List Char), canonAux l = true → ∀ c ∈ l, isWs c = true → c = ' ' := by
  intro l
  induction l with
  | nil => intro _ c hc; cases hc
  | cons x xs ih =>
    intro h c hc hw
    rcases List.mem_cons.mp hc with rfl | hc
    · cases xs with
      | nil =>
        exfalso
        have : (!isWs c) = true := h
        rw [hw] at this
        cases this
      | cons d ds => exact (canonAux_ws_cons h hw).1
    · exact ih (canonAux_tail h) c hc hw

theorem canonical_cons {c : Char} {l : List Char} :
    canonical (c :: l) = true ↔ isWs c = false ∧ canonAux (c :: l) = true := by
  rw [canonical, Bool.and_eq_true]
  simp

theorem canonAux_glue :
    ∀ (xs : List Char), (∀ c ∈ xs, isWs c = false) →
      ∀ (y : Char) (ys' : List Char), isWs y = false → canonAux (y :: ys') = true →
        canonAux (xs ++ ' ' :: y :: ys') = true := by
  intro xs
  induction xs with
  | nil =>
    intro _ y ys' hy hys
    rw [List.nil_append, canonAux_cons_cons]
    simp [hy, hys]
  | cons c cs ih =>
    intro h y ys' hy hys
    rw [List.cons_append]
    exact canonAux_cons_of_nonWs (h c (by simp))
      (ih (fun x hx => h x (List.mem_cons_of_mem c hx)) y ys' hy hys)

theorem joinSpace_cons (u : List Char) (ts : List (List Char)) :
    joinSpace (u :: ts) = u ++ (if ts.isEmpty then [] else ' ' :: joinSpace ts) := by
  cases ts with
  | nil => simp [joinSpace]
  | cons v vs => simp [joinSpace]

/-- Joining nonempty whitespace-free tokens with single spaces yields a
canonical string. -/
theorem canonical_joinSpace :
    ∀ (ts : List (List Char)),
      (∀ t ∈ ts, t ≠ [] ∧ ∀ c ∈ t, isWs c = false) →
      canonical (joinSpace ts) = true := by
  intro ts
  induction ts with
  | nil => intro _; rfl
  | cons t us ih =>
    intro h
    obtain ⟨hne, hnw⟩ := h t (by simp)
    obtain ⟨c, rest, rfl⟩ := List.exists_cons_of_ne_nil hne
    cases us with
    | nil =>
      rw [joinSpace]
      rw [canonical_cons]
      exact ⟨hnw c (by simp), canonAux_of_all_nonWs _ hnw⟩
    | cons u vs =>
      have hrec := ih fun x hx => h x (List.mem_cons_of_mem _ hx)
      obtain ⟨hune, hunw⟩ := h u (by simp)
      obtain ⟨y, yr, hy⟩ := List.exists_cons_of_ne_nil hune
      have hjoin : joinSpace (u :: vs) = u ++ (if vs.isEmpty then [] else ' ' :: joinSpace vs) :=
        joinSpace_cons u vs
      obtain ⟨z, zs, hz⟩ : ∃ z zs, joinSpace (u :: vs) = z :: zs ∧ isWs z = false := by
        refine ⟨y, yr ++ (if vs.isEmpty then [] else ' ' :: joinSpace vs), ?_, ?_⟩
        · rw [hjoin, hy]; rfl
        · exact hunw y (by rw [hy]; simp)
      obtain ⟨hz1, hz2⟩ := hz
      have hcanJ : canonAux (z :: zs) = true := by
        have h2 := hrec
        rw [hz1] at h2
        exact (canonical_cons.mp h2).2
      rw [joinSpace]
      refine canonical_cons.mpr ⟨hnw c (by simp), ?_⟩
      rw [hz1]
      exact canonAux_glue (c :: rest) hnw z zs hz2 hcanJ

/-- The collapsing step leaves every canonical string unchanged. -/
theorem collapse_of_canonical_aux :
    ∀ (n : Nat) (s : List Char), s.length ≤ n → canonical s = true →
      collapse s = s := by
  intro n
  induction n with
  | zero =>
    intro s hs _
    have : s = [] := List.eq_nil_of_length_eq_zero (Nat.le_zero.mp hs)
    subst this
    rw [collapse, pySplit_nil]
    rfl
  | succ n ih =>
    intro s hs hcan
    cases s with
    | nil =>
      rw [collapse, pySplit_nil]
      rfl
    | cons a s' =>
      obtain ⟨ha, haux⟩ := canonical_cons.mp hcan
      have hdw : (a :: s').dropWhile isWs = a :: s' := by
        rw [List.dropWhile_cons, if_neg (by simp [ha])]
      rw [collapse, pySplit_eq_cons (a :: s') a s' hdw]
      have hTR := List.takeWhile_append_dropWhile (p := fun x => !isWs x) (l := s')
      cases hR : s'.dropWhile (fun x => !isWs x) with
      | nil =>
        have hT : s'.takeWhile (fun x => !isWs x) = s' :=
          takeWhile_eq_self_of_dropWhile_nil hR
        rw [pySplit_nil, hT]
        rfl
      | cons r R' =>
        have hrws : isWs r = true := by
          have := dropWhile_head_false (fun x => !isWs x) hR
          simpa using this
        have hsplit : s' = s'.takeWhile (fun x => !isWs x) ++ r :: R' := by
          rw [← hR]
          exact hTR.symm
        have hauxT : canonAux (r :: R') = true := by
          have h1 : canonAux s' = true := canonAux_tail haux
          have h2 := h1
          rw [hsplit] at h2
          exact canonAux_append_right _ _ h2
        obtain ⟨hrsp, b, R'', hR', hbws⟩ := canonAux_ws_cons hauxT hrws
        have hcanR' : canonical R' = true := by
          rw [hR']
          exact canonical_cons.mpr ⟨hbws, by rw [← hR']; exact canonAux_tail hauxT⟩
        have hlenR' : R'.length ≤ n := by
          have h1 := congrArg List.length hsplit
          simp only [List.length_append, List.length_cons] at h1
          simp only [List.length_cons] at hs
          omega
        have hIH : joinSpace (pySplit R') = R' := ih R' hlenR' hcanR'
        have hpsR : pySplit (r :: R') = pySplit R' := by
          rw [pySplit_dropWhile (r :: R')]
          have hstep : (r :: R').dropWhile isWs = R' := by
            rw [hR']
            simp [List.dropWhile_cons, hrws, hbws]
          rw [hstep]
        obtain ⟨u, us, hus⟩ : ∃ u us, pySplit R' = u :: us := by
          have hdwb : (b :: R'').dropWhile isWs = b :: R'' := by
            rw [List.dropWhile_cons, if_neg (by simp [hbws])]
          rw [hR']
          exact ⟨_, _, pySplit_eq_cons (b :: R'') b R'' hdwb⟩
        rw [hpsR, hus, joinSpace_cons]
        have hJ : joinSpace (u :: us) = R' := by
          rw [← hus]
          exact hIH
        rw [if_neg (by simp), hJ, ← hrsp]
        show a :: (List.takeWhile (fun x => !isWs x) s' ++ r :: R') = a :: s'
        rw [← hsplit]

/-- Wrapper: a canonical string is a fixed point of `collapse`. -/
theorem collapse_fixed (s : List Char) (h : canonical s = true) : collapse s = s :=
  collapse_of_canonical_aux s.length s le_rfl h

/-- The collapsing step always produces a canonical string. -/
theorem canonical_collapse (s : List Char) : canonical (collapse s) = true :=
  canonical_joinSpace (pySplit s) (pySplit_tokens s.length s le_rfl)

/-- Strings whose whitespace characters are all plain spaces are fixed by
the control-character replacement. -/
theorem replCtl_eq_self :
    ∀ (s : List Char), (∀ c ∈ s, isWs c = true → c = ' ') → replCtl s = s := by
  intro s
  induction s with
  | nil => intro _; rfl
  | cons c t ih =>
    intro hws
    rw [replCtl, List.map_cons]
    have hc : (if c == '\r' || c == '\n' || c == '\t' then ' ' else c) = c := by
      rcases hcb : (c == '\r' || c == '\n' || c == '\t') with _ | _
      · simp [hcb]
      · exfalso
        have hcw : isWs c = true := by
          simp only [Bool.or_eq_true, beq_iff_eq] at hcb
          rcases hcb with (h1 | h1) | h1 <;> subst h1 <;> decide
        have hsp := hws c (by simp) hcw
        subst hsp
        simp at hcb
    rw [hc]
    have ht := ih fun x hx hxw => hws x (List.mem_cons_of_mem c hx) hxw
    rw [replCtl] at ht
    rw [ht]

/-- The control-character replacement leaves a canonical string
unchanged (its whitespace is all plain spaces). -/
theorem replCtl_of_canonical (s : List Char) (h : canonical s = true) :
    replCtl s = s := by
  refine replCtl_eq_self s ?_
  cases s with
  | nil => intro c hc; cases hc
  | cons a s' => exact canonAux_ws_eq_space _ (canonical_cons.mp h).2

/-- Appending the ellipsis to a prefix of a `canonAux` string keeps
`canonAux` (the ellipsis is not whitespace, so a trailing space in the
prefix becomes a legal interior space). -/
theorem canonAux_take_ell :
    ∀ (l : List Char) (k : Nat), canonAux l = true →
      canonAux (l.take k ++ [ellChar]) = true := by
  intro l
  induction l with
  | nil =>
    intro k _
    simp only [List.take_nil, List.nil_append]
    decide
  | cons c cs ih =>
    intro k h
    cases k with
    | zero =>
      simp only [List.take_zero, List.nil_append]
      decide
    | succ k' =>
      rw [List.take_succ_cons, List.cons_append]
      cases cs with
      | nil =>
        have hc : isWs c = false := by simpa [canonAux] using h
        simp only [List.take_nil, List.nil_append]
        rw [canonAux_cons_cons, hc, Bool.and_eq_true]
        exact ⟨by simp, by decide⟩
      | cons e cs' =>
        rw [canonAux_cons_cons, Bool.and_eq_true] at h
        obtain ⟨hcond, htail⟩ := h
        cases k' with
        | zero =>
          simp only [List.take_zero, List.nil_append]
          rw [canonAux_cons_cons, Bool.and_eq_true]
          refine ⟨?_, by decide⟩
          by_cases hw : isWs c = true
          · have hsp : c = ' ' := by
              rw [if_pos hw, Bool.and_eq_true] at hcond
              simpa using hcond.1
            rw [if_pos hw, hsp]
            decide
          · rw [if_neg hw]
        | succ j =>
          rw [List.take_succ_cons, List.cons_append, canonAux_cons_cons, Bool.and_eq_true]
          refine ⟨hcond, ?_⟩
          have hrec := ih (j + 1) htail
          rw [List.take_succ_cons, List.cons_append] at hrec
          exact hrec

/-- Appending the ellipsis to a prefix of a canonical string keeps it
canonical. -/
theorem canonical_take_ell (l : List Char) (k : Nat) (h : canonical l = true) :
    canonical (l.take k ++ [ellChar]) = true := by
  cases l with
  | nil =>
    simp only [List.take_nil, List.nil_append]
    decide
  | cons c cs =>
    cases k with
    | zero =>
      simp only [List.take_zero, List.nil_append]
      decide
    | succ k' =>
      rw [List.take_succ_cons, List.cons_append]
      obtain ⟨hc, haux⟩ := canonical_cons.mp h
      refine canonical_cons.mpr ⟨hc, ?_⟩
      have hrec := canonAux_take_ell (c :: cs) (k' + 1) haux
      rw [List.take_succ_cons, List.cons_append] at hrec
      exact hrec

/-! ## Sanitizer unfolding lemmas -/

theorem clean_nonnull (v : CellV) (hv : v ≠ CellV.null) (L : Nat) :
    clean v L =
      (if L < (collapse (replCtl (strOf v))).length then
        pyTake (collapse (replCtl (strOf v))) ((L : Int) - 1) ++ [ellChar]
      else collapse (replCtl (strOf v))) := by
  cases v with
  | null => exact absurd rfl hv
  | text s => rfl
  | intg n => rfl

theorem cleanNoLimit_nonnull (v : CellV) (hv : v ≠ CellV.null) :
    cleanNoLimit v = collapse (replCtl (strOf v)) := by
  cases v with
  | null => exact absurd rfl hv
  | text s => rfl
  | intg n => rfl

theorem cleanNoLimit_canonical (v : CellV) : canonical (cleanNoLimit v) = true := by
  cases v with
  | null => rfl
  | text s => exact canonical_collapse _
  | intg n => exact canonical_collapse _

/-- With a positive length bound, the truncation slice is the plain
prefix of length `L - 1` and the result length is exactly `L`. -/
theorem pyTake_trunc (b : List Char) (L : Nat) (hL : 1 ≤ L) (hgt : L < b.length) :
    pyTake b ((L : Int) - 1) = b.take (L - 1) ∧
    (pyTake b ((L : Int) - 1) ++ [ellChar]).length = L := by
  have h1 : pyTake b ((L : Int) - 1) = b.take (L - 1) := by
    rw [pyTake, if_neg (by omega)]
    congr 1
    omega
  refine ⟨h1, ?_⟩
  rw [h1]
  simp only [List.length_append, List.length_take, List.length_cons, List.length_nil]
  omega

/-- With length bound 0, Python's `s[:-1]` drops the final character. -/
theorem pyTake_zero_bound (b : List Char) (hb : 1 ≤ b.length) :
    pyTake b ((0 : Int) - 1) = b.take (b.length - 1) := by
  rw [pyTake, if_pos (by omega)]
  congr 1
  omega

/-! ## C4 : truncation law of the cell sanitizer -/

/-- Counterexample to claim C4 as stated: at length bound `L = 0` the
sanitized form of the text cell `ab` has length `2 > 0`, yet
`clean` returns `a…` (Python's `s[:-1] + "…"`), whose length is 2, not
`L = 0`. -/
theorem sanitizer_truncation_counterexample :
    0 < (cleanNoLimit (.text "ab".data)).length
    ∧ (clean (.text "ab".data) 0).length ≠ 0
    ∧ clean (.text "ab".data) 0 = "a…".data := by
  have hb : collapse (replCtl (strOf (CellV.text "ab".data))) = "ab".data := by
    rw [show replCtl (strOf (CellV.text "ab".data)) = "ab".data from rfl]
    exact collapse_fixed _ (by decide)
  have h1 : cleanNoLimit (.text "ab".data) = "ab".data := by
    rw [cleanNoLimit_nonnull _ (by simp), hb]
  have h2 : clean (.text "ab".data) 0 = "a…".data := by
    rw [clean_nonnull _ (by simp) 0, hb]
    decide
  refine ⟨by rw [h1]; decide, by rw [h2]; decide, h2⟩

/-- Claim C4 amended: for every cell and every length bound `L ≥ 1`, if
the unbounded sanitized string is longer than `L` then `clean` returns
its prefix of length `L - 1` followed by the single ellipsis character,
for a total length of exactly `L`; otherwise the sanitized string is
returned unchanged. (At `L = 0` the code instead drops one character and
appends the ellipsis, keeping the original length.) -/
theorem sanitizer_truncation_amended (v : CellV) (L : Nat) (hL : 1 ≤ L) :
    ((cleanNoLimit v).length ≤ L → clean v L = cleanNoLimit v)
    ∧ (L < (cleanNoLimit v).length →
        (clean v L).length = L
        ∧ clean v L = (cleanNoLimit v).take (L - 1) ++ [ellChar]) := by
  by_cases hv : v = CellV.null
  · subst hv
    refine ⟨fun _ => rfl, fun h => ?_⟩
    simp only [cleanNoLimit, List.length_nil] at h
    omega
  · rw [clean_nonnull v hv L, cleanNoLimit_nonnull v hv]
    set b := collapse (replCtl (strOf v)) with hbdef
    constructor
    · intro hle
      rw [if_neg (by omega)]
    · intro hgt
      obtain ⟨htake, hlen⟩ := pyTake_trunc b L hL hgt
      rw [if_pos hgt, htake]
      refine ⟨?_, rfl⟩
      rw [← htake]
      exact hlen

/-- Witness for C4 (amended): the 11-character sanitized cell
`hello world` at bound `L = 4` truncates to `hel…` of length 4, and at
bound `L = 20` passes through unchanged. -/
theorem sanitizer_truncation_amended_witness :
    1 ≤ 4
    ∧ 4 < (cleanNoLimit (.text "hello world".data)).length
    ∧ (clean (.text "hello world".data) 4).length = 4
    ∧ clean (.text "hello world".data) 4 =
        (cleanNoLimit (.text "hello world".data)).take 3 ++ [ellChar]
    ∧ clean (.text "hello world".data) 20 = cleanNoLimit (.text "hello world".data) := by
  have hb : collapse (replCtl (strOf (CellV.text "hello world".data))) = "hello world".data := by
    rw [show replCtl (strOf (CellV.text "hello world".data)) = "hello world".data from rfl]
    exact collapse_fixed _ (by decide)
  have h1 : cleanNoLimit (.text "hello world".data) = "hello world".data := by
    rw [cleanNoLimit_nonnull _ (by simp), hb]
  have hgt : 4 < (cleanNoLimit (.text "hello world".data)).length := by
    rw [h1]; decide
  have h4 := sanitizer_truncation_amended (.text "hello world".data) 4 (by decide)
  have h20 := sanitizer_truncation_amended (.text "hello world".data) 20 (by decide)
  refine ⟨by decide, hgt, (h4.2 hgt).1, (h4.2 hgt).2, h20.1 (by rw [h1]; decide)⟩

/-! ## C8 : idempotence of the cell sanitizer -/

/-- The output of `clean` is canonical. -/
theorem clean_canonical (v : CellV) (L : Nat) : canonical (clean v L) = true := by
  by_cases hv : v = CellV.null
  · subst hv
    rfl
  · rw [clean_nonnull v hv L]
    split
    · rw [pyTake]
      exact canonical_take_ell _ _ (canonical_collapse _)
    · exact canonical_collapse _

/-- Claim C8: the sanitizer is idempotent — re-sanitizing its own output
under the same length bound returns the same string, for every cell value
and every bound (including 0). -/
theorem sanitizer_idempotent (v : CellV) (L : Nat) :
    clean (.text (clean v L)) L = clean v L := by
  have hcant : canonical (clean v L) = true := clean_canonical v L
  have hrep : replCtl (clean v L) = clean v L := replCtl_of_canonical _ hcant
  have hcol : collapse (clean v L) = clean v L := collapse_fixed _ hcant
  have houter : clean (.text (clean v L)) L =
      (if L < (clean v L).length then
        pyTake (clean v L) ((L : Int) - 1) ++ [ellChar]
      else clean v L) := by
    have h := clean_nonnull (.text (clean v L)) (by simp) L
    rw [show strOf (CellV.text (clean v L)) = clean v L from rfl] at h
    rw [hrep, hcol] at h
    exact h
  by_cases hv : v = CellV.null
  · subst hv
    rw [houter]
    rfl
  · have hinner := clean_nonnull v hv L
    set b := collapse (replCtl (strOf v)) with hbdef
    by_cases hgt : L < b.length
    · rw [if_pos hgt] at hinner
      by_cases hL : 1 ≤ L
      · have hlen : (clean v L).length = L := by
          rw [hinner]
          exact (pyTake_trunc b L hL hgt).2
        rw [houter, if_neg (by omega)]
      · have hL0 : L = 0 := by omega
        subst hL0
        simp only [Nat.cast_zero] at houter hinner
        have hble : 1 ≤ b.length := by omega
        have hinner' : clean v 0 = b.take (b.length - 1) ++ [ellChar] := by
          rw [hinner, pyTake_zero_bound b hble]
        have hlen : (clean v 0).length = b.length := by
          rw [hinner']
          simp only [List.length_append, List.length_take, List.length_cons,
            List.length_nil]
          omega
        rw [houter, if_pos (by omega)]
        have hc01 : 1 ≤ (clean v 0).length := by omega
        have htk : pyTake (clean v 0) ((0 : Int) - 1) = b.take (b.length - 1) := by
          rw [pyTake_zero_bound (clean v 0) hc01, hlen, hinner']
          exact List.take_left' (by rw [List.length_take]; omega)
        rw [htk, ← hinner']
    · rw [if_neg hgt] at hinner
      rw [houter, hinner, if_neg hgt]

/-! ## C1 : dangerous-statement confirmation gate -/

/-- Counterexample to claim C1 as stated: the statement `delete\nfrom t`
contains `delete` as a whole word (case-insensitively), yet the gate flag
is false — the scan only recognizes keywords surrounded by plain spaces —
so the statement is executed with no confirmation, even under the empty
(non-affirmative, default) response. -/
theorem dangerous_gate_counterexample :
    ContainsWholeWord "delete".data "delete\nfrom t".data
    ∧ dangerous "delete\nfrom t".data = false
    ∧ affirm [] = false
    ∧ gateExecutes "delete\nfrom t".data [] = true
    ∧ executedCount "delete\nfrom t".data [] = 1 := by
  refine ⟨⟨[], "\nfrom t".data, by decide, ?_, ?_⟩, by decide, by decide, by decide, by decide⟩
  · intro c hc
    simp at hc
  · intro c hc
    simp only [List.head?] at hc
    cases hc
    decide

/-- Claim C1 amended: for every statement whose lowercased text, padded
with one space on each side, contains one of the space-delimited keywords
`" drop "`, `" truncate "`, `" delete "`, `" alter "`, `" shutdown "`,
`" kill "` as a substring, execution happens exactly when the stripped,
lowercased response is `yes`; every other response — including the empty
default — cancels with zero executed statements and control returns to
the menu. -/
theorem dangerous_gate_amended (sql resp : List Char)
    (hd : dangerous sql = true) :
    gateExecutes sql resp = affirm resp
    ∧ (affirm resp = false → executedCount sql resp = 0) := by
  constructor
  · rw [gateExecutes, if_pos hd]
  · intro hr
    rw [executedCount, gateExecutes, if_pos hd, hr]
    rfl

/-- Witness for C1: `DELETE FROM t` is flagged, the empty default response
cancels with zero executed statements, and the response `yes` executes. -/
theorem dangerous_gate_amended_witness :
    dangerous "DELETE FROM t".data = true
    ∧ executedCount "DELETE FROM t".data [] = 0
    ∧ gateExecutes "DELETE FROM t".data " YES ".data = affirm " YES ".data
    ∧ affirm " YES ".data = true := by
  refine ⟨by decide, (dangerous_gate_amended "DELETE FROM t".data [] (by decide)).2 (by decide),
    (dangerous_gate_amended "DELETE FROM t".data " YES ".data (by decide)).1, by decide⟩

/-! ## C5 : pagination invariant -/

/-- Every single pagination command preserves `page * P < total`. -/
theorem pgStep_preserves_inv (total P page : Nat) (c : PgCmd)
    (h : page * P < total) : pgStep total P page c * P < total := by
  cases c with
  | nxt =>
    rw [pgStep]
    split
    · exact h
    · rename_i hlt
      rw [Nat.succ_mul]
      omega
  | prv =>
    rw [pgStep]
    split
    · exact h
    · have hle : (page - 1) * P ≤ page * P := Nat.mul_le_mul_right P (Nat.sub_le page 1)
      omega
  | sv => exact h
  | other => exact h

theorem pgRun_aux_inv (total P : Nat) (cmds : List PgCmd) :
    ∀ page, page * P < total → cmds.foldl (pgStep total P) page * P < total := by
  induction cmds with
  | nil => intro page h; exact h
  | cons c cs ih =>
    intro page h
    exact ih (pgStep total P page c) (pgStep_preserves_inv total P page c h)

/-- Claim C5: after any finite command sequence the start index is a
multiple of the page size and lies inside the row list; `next` on the last
page and `previous` on the first page (and `s` and invalid input) leave
the page unchanged; a non-final page shows exactly `P` rows and the final
page shows `total mod P` rows (or `P` when `P` divides `total`). -/
theorem pagination_invariant (rows : List RowD) (P : Nat) (cmds : List PgCmd)
    (ht : 1 ≤ rows.length) (hP : 1 ≤ P) :
    P ∣ pgRun rows.length P cmds * P
    ∧ pgRun rows.length P cmds * P < rows.length
    ∧ (rows.length ≤ pgRun rows.length P cmds * P + P →
        pgStep rows.length P (pgRun rows.length P cmds) .nxt = pgRun rows.length P cmds)
    ∧ (pgRun rows.length P cmds = 0 →
        pgStep rows.length P (pgRun rows.length P cmds) .prv = pgRun rows.length P cmds)
    ∧ pgStep rows.length P (pgRun rows.length P cmds) .sv = pgRun rows.length P cmds
    ∧ pgStep rows.length P (pgRun rows.length P cmds) .other = pgRun rows.length P cmds
    ∧ (pgRun rows.length P cmds * P + P ≤ rows.length →
        (pageSlice rows P (pgRun rows.length P cmds)).length = P)
    ∧ (rows.length < pgRun rows.length P cmds * P + P →
        (pageSlice rows P (pgRun rows.length P cmds)).length =
          if P ∣ rows.length then P else rows.length % P) := by
  set total := rows.length with htotal
  set page := pgRun rows.length P cmds with hpage
  have hinv : page * P < total := by
    rw [hpage, pgRun]
    exact pgRun_aux_inv total P cmds 0 (by simpa using ht)
  have hslice : (pageSlice rows P page).length =
      min (page * P + P) total - page * P := by
    rw [pageSlice]
    simp only [List.length_take, List.length_drop, ← htotal]
    omega
  refine ⟨dvd_mul_left P page, hinv, ?_, ?_, rfl, rfl, ?_, ?_⟩
  · intro h
    rw [pgStep, if_pos (by omega)]
  · intro h
    rw [pgStep, if_pos h]
  · intro h
    rw [hslice]
    omega
  · intro h
    rw [hslice]
    have hcomm : P * page = page * P := Nat.mul_comm P page
    have hdiv : total / P = page :=
      Nat.div_eq_of_lt_le (Nat.le_of_lt hinv) (by rw [Nat.succ_mul]; omega)
    have hmod2 := Nat.div_add_mod total P
    rw [hdiv] at hmod2
    split
    · rename_i hdvd
      exfalso
      have h0 : total % P = 0 := Nat.mod_eq_zero_of_dvd hdvd
      omega
    · omega

/-- Witness for C5: five rows, page size two, a command run that bounces
off both boundaries; the final page shows `5 mod 2 = 1` row. -/
theorem pagination_invariant_witness :
    1 ≤ ([[], [], [], [], []] : List RowD).length
    ∧ 1 ≤ 2
    ∧ pgRun ([[], [], [], [], []] : List RowD).length 2
        [.nxt, .nxt, .nxt, .prv, .sv, .other, .nxt] * 2 <
        ([[], [], [], [], []] : List RowD).length
    ∧ (pageSlice ([[], [], [], [], []] : List RowD) 2
        (pgRun ([[], [], [], [], []] : List RowD).length 2
          [.nxt, .nxt, .nxt, .prv, .sv, .other, .nxt])).length =
        ([[], [], [], [], []] : List RowD).length % 2 := by
  have h := pagination_invariant ([[], [], [], [], []] : List RowD) 2
    [.nxt, .nxt, .nxt, .prv, .sv, .other, .nxt] (by decide) (by decide)
  refine ⟨by decide, by decide, h.2.1, ?_⟩
  have hlast := h.2.2.2.2.2.2.2 (by decide)
  rw [hlast]
  decide

/-! ## C6 : export round-trip -/

theorem any_eq_false_forall {α : Type} {p : α → Bool} {l : List α}
    (h : l.any p = false) : ∀ x ∈ l, p x = false := by
  intro x hx
  by_contra hcon
  have hx' : p x = true := by
    cases hpx : p x with
    | false => exact absurd hpx hcon
    | true => rfl
  have : l.any p = true := List.any_eq_true.mpr ⟨x, hx, hx'⟩
  rw [h] at this
  cases this

/-! ### Unfolding equations for the fuel-indexed parsers -/

theorem parseQ_succ_cons (f : Nat) (c : Char) (t : List Char) :
    parseQ (f + 1) (c :: t) =
      (if c == '"' then
        (match t with
         | [] => ([], [])
         | t0 :: t2 =>
             if t0 == '"' then ('"' :: (parseQ f t2).1, (parseQ f t2).2)
             else ([], t))
      else ((c :: (parseQ f t).1), (parseQ f t).2)) := rfl

theorem parseField_nil (fuel : Nat) : parseField fuel [] = ([], []) := rfl

theorem parseField_cons (fuel : Nat) (c : Char) (t : List Char) :
    parseField fuel (c :: t) =
      (if c == '"' then parseQ fuel t
       else ((c :: t).takeWhile (fun x => !endField x),
         (c :: t).dropWhile (fun x => !endField x))) := rfl

theorem parseRec_succ (f : Nat) (s : List Char) :
    parseRec (f + 1) s =
      (match (parseField f s).2 with
       | [] => ([(parseField f s).1], [])
       | c :: t =>
           if c == ',' then
             ((parseField f s).1 :: (parseRec f t).1, (parseRec f t).2)
           else if c == '\r' then
             match t with
             | [] => ([(parseField f s).1], c :: t)
             | c2 :: t2 =>
                 if c2 == '\n' then ([(parseField f s).1], t2)
                 else ([(parseField f s).1], c :: t)
           else ([(parseField f s).1], c :: t)) := rfl

theorem parseRecs_nil (fuel : Nat) : parseRecs fuel [] = [] := by
  cases fuel <;> rfl

theorem parseRecs_succ_cons (f : Nat) (c : Char) (t : List Char) :
    parseRecs (f + 1) (c :: t) =
      (parseRec f (c :: t)).1 :: parseRecs f (parseRec f (c :: t)).2 := rfl

/-- The quoted-field parser undoes quote-doubling, given enough fuel and a
continuation that does not begin with a quote. -/
theorem parseQ_escQ :
    ∀ (x : List Char) (fuel : Nat) (rest : List Char),
      x.length < fuel → rest.head? ≠ some '"' →
      parseQ fuel (escQ x ++ '"' :: rest) = (x, rest) := by
  intro x
  induction x with
  | nil =>
    intro fuel rest hf hr
    cases fuel with
    | zero => omega
    | succ f =>
      show parseQ (f + 1) ('"' :: rest) = ([], rest)
      rw [parseQ_succ_cons, if_pos (by decide)]
      cases rest with
      | nil => rfl
      | cons r t2 =>
        have hrq : (r == '"') = false := by
          simp only [List.head?] at hr
          have hrne : r ≠ '"' := fun hcc => hr (by rw [hcc])
          simpa using hrne
        show (if r == '"' then ('"' :: (parseQ f t2).1, (parseQ f t2).2)
          else ([], r :: t2)) = ([], r :: t2)
        rw [if_neg (by simp [hrq])]
  | cons c xs ih =>
    intro fuel rest hf hr
    cases fuel with
    | zero => simp at hf
    | succ f =>
      have hf' : xs.length < f := by
        simp only [List.length_cons] at hf
        omega
      by_cases hc : (c == '"') = true
      · have hc' : c = '"' := by simpa using hc
        subst hc'
        have hesc : escQ ('"' :: xs) = '"' :: '"' :: escQ xs := by
          rw [escQ, if_pos (by decide)]
        rw [hesc]
        show parseQ (f + 1) ('"' :: ('"' :: (escQ xs ++ '"' :: rest))) = ('"' :: xs, rest)
        rw [parseQ_succ_cons, if_pos (by decide)]
        show (if '"' == '"' then ('"' :: (parseQ f (escQ xs ++ '"' :: rest)).1,
            (parseQ f (escQ xs ++ '"' :: rest)).2)
          else ([], escQ xs ++ '"' :: rest)) = ('"' :: xs, rest)
        rw [if_pos (by decide), ih f rest hf' hr]
      · have hesc : escQ (c :: xs) = c :: escQ xs := by
          rw [escQ, if_neg (by simp [hc])]
        rw [hesc]
        show parseQ (f + 1) (c :: (escQ xs ++ '"' :: rest)) = (c :: xs, rest)
        rw [parseQ_succ_cons, if_neg (by simp [hc]), ih f rest hf' hr]

/-- A continuation permitted after a serialized field inside a record:
nothing, a delimiter, or the carriage return of the record end. -/
def OkFieldRest (rest : List Char) : Prop :=
  rest = [] ∨ ∃ t, rest = ',' :: t ∨ rest = '\r' :: t

theorem OkFieldRest.head_ne_quote {rest : List Char} (h : OkFieldRest rest) :
    rest.head? ≠ some '"' := by
  rcases h with rfl | ⟨t, rfl | rfl⟩ <;> simp

theorem takeWhile_not_endField_rest {rest : List Char} (hrest : OkFieldRest rest) :
    rest.takeWhile (fun a => !endField a) = [] := by
  rcases hrest with rfl | ⟨t, rfl | rfl⟩
  · rfl
  · rw [List.takeWhile_cons, if_neg (by decide)]
  · rw [List.takeWhile_cons, if_neg (by decide)]

theorem dropWhile_not_endField_rest {rest : List Char} (hrest : OkFieldRest rest) :
    rest.dropWhile (fun a => !endField a) = rest := by
  rcases hrest with rfl | ⟨t, rfl | rfl⟩
  · rfl
  · rw [List.dropWhile_cons, if_neg (by decide)]
  · rw [List.dropWhile_cons, if_neg (by decide)]

/-- The field parser inverts the field writer. -/
theorem parseField_csvField (x : List Char) (fuel : Nat) (rest : List Char)
    (hf : x.length < fuel) (hrest : OkFieldRest rest) :
    parseField fuel (csvField x ++ rest) = (x, rest) := by
  by_cases hq : needsQuote x = true
  · have hfield : csvField x ++ rest = '"' :: (escQ x ++ '"' :: rest) := by
      rw [csvField, if_pos hq]
      simp
    rw [hfield, parseField_cons, if_pos (by decide)]
    exact parseQ_escQ x fuel rest hf hrest.head_ne_quote
  · have hq' : needsQuote x = false := by
      cases hnq : needsQuote x with
      | false => rfl
      | true => exact absurd hnq hq
    have hchars := any_eq_false_forall hq'
    have hnend : ∀ a ∈ x, (!endField a) = true := by
      intro a ha
      have h := hchars a ha
      simp only [Bool.or_eq_false_iff, beq_eq_false_iff_ne] at h
      obtain ⟨⟨⟨h1, _⟩, h3⟩, h4⟩ := h
      simp [endField, h1, h3, h4]
    have hfx : csvField x = x := by rw [csvField, if_neg (by simp [hq'])]
    rw [hfx]
    cases x with
    | nil =>
      rw [List.nil_append]
      rcases hrest with rfl | ⟨t, rfl | rfl⟩
      · rfl
      · rw [parseField_cons, if_neg (by decide), List.takeWhile_cons,
          if_neg (by decide), List.dropWhile_cons, if_neg (by decide)]
      · rw [parseField_cons, if_neg (by decide), List.takeWhile_cons,
          if_neg (by decide), List.dropWhile_cons, if_neg (by decide)]
    | cons a x' =>
      have ha : a ≠ '"' := by
        have h := hchars a (by simp)
        simp only [Bool.or_eq_false_iff, beq_eq_false_iff_ne] at h
        exact h.1.1.2
      rw [List.cons_append, parseField_cons, if_neg (by simpa using ha),
        ← List.cons_append]
      rw [List.takeWhile_append_of_pos hnend, takeWhile_not_endField_rest hrest,
        List.append_nil, List.dropWhile_append_of_pos hnend,
        dropWhile_not_endField_rest hrest]

/-- The record parser inverts the record writer. -/
theorem parseRec_csvRecord :
    ∀ (fs : List (List Char)) (fuel : Nat) (rest : List Char),
      fs ≠ [] → recFuel fs ≤ fuel →
      parseRec fuel (csvRecord fs ++ crlf ++ rest) = (fs, rest) := by
  intro fs
  induction fs with
  | nil => intro fuel rest h _; exact absurd rfl h
  | cons x fs' ih =>
    intro fuel rest _ hfuel
    have hrf : recFuel (x :: fs') = x.length + 2 + recFuel fs' := by
      rw [recFuel, recFuel, List.map_cons, List.sum_cons]
    cases fuel with
    | zero =>
      rw [hrf] at hfuel
      omega
    | succ f =>
      cases fs' with
      | nil =>
        have hshape : csvRecord [x] ++ crlf ++ rest = csvField x ++ ('\r' :: '\n' :: rest) := by
          rw [csvRecord, crlf]
          simp
        have hflen : x.length < f := by
          rw [hrf] at hfuel
          omega
        rw [hshape, parseRec_succ,
          parseField_csvField x f ('\r' :: '\n' :: rest) hflen
            (Or.inr ⟨'\n' :: rest, Or.inr rfl⟩)]
        simp
      | cons y fs'' =>
        have hshape : csvRecord (x :: y :: fs'') ++ crlf ++ rest =
            csvField x ++ (',' :: (csvRecord (y :: fs'') ++ crlf ++ rest)) := by
          rw [csvRecord]
          simp
        have hflen : x.length < f := by
          rw [hrf] at hfuel
          omega
        have hfuel' : recFuel (y :: fs'') ≤ f := by
          rw [hrf] at hfuel
          omega
        have hih := ih f rest (by simp) hfuel'
        rw [List.append_assoc] at hih
        rw [hshape, parseRec_succ,
          parseField_csvField x f (',' :: (csvRecord (y :: fs'') ++ crlf ++ rest)) hflen
            (Or.inr ⟨csvRecord (y :: fs'') ++ crlf ++ rest, Or.inl rfl⟩)]
        simp only [List.append_assoc] at *
        simp
        rw [hih]
        exact ⟨rfl, rfl⟩

/-- The file parser inverts the file writer. -/
theorem parseRecs_csvLines :
    ∀ (rs : List (List (List Char))) (fuel : Nat),
      (∀ fs ∈ rs, fs ≠ []) → fileFuel rs ≤ fuel →
      parseRecs fuel (csvLines rs) = rs := by
  intro rs
  induction rs with
  | nil =>
    intro fuel _ _
    cases fuel with
    | zero => rfl
    | succ f => rfl
  | cons fs rs' ih =>
    intro fuel hnn hfuel
    have hff : fileFuel (fs :: rs') = recFuel fs + 1 + fileFuel rs' := by
      rw [fileFuel, fileFuel, List.map_cons, List.sum_cons]
    have hrecpos : 1 ≤ recFuel fs := by
      obtain ⟨a, fs0, rfl⟩ := List.exists_cons_of_ne_nil (hnn fs (by simp))
      rw [recFuel, List.map_cons, List.sum_cons]
      omega
    cases fuel with
    | zero =>
      rw [hff] at hfuel
      omega
    | succ f =>
      obtain ⟨c, t, hct⟩ : ∃ c t, csvLines (fs :: rs') = c :: t := by
        rw [csvLines]
        cases hcr : csvRecord fs with
        | nil => exact ⟨'\r', '\n' :: csvLines rs', by simp [crlf]⟩
        | cons a u => exact ⟨a, u ++ (crlf ++ csvLines rs'), by simp⟩
      have hrec : parseRec f (csvLines (fs :: rs')) = (fs, csvLines rs') := by
        rw [csvLines]
        exact parseRec_csvRecord fs f (csvLines rs') (hnn fs (by simp))
          (by rw [hff] at hfuel; omega)
      rw [hct, parseRecs_succ_cons, ← hct, hrec]
      rw [ih f (fun g hg => hnn g (List.mem_cons_of_mem fs hg)) (by rw [hff] at hfuel; omega)]

/-! ### Fuel accounting for `parseCsv` -/

theorem escQ_length_ge (x : List Char) : x.length ≤ (escQ x).length := by
  induction x with
  | nil => simp [escQ]
  | cons c cs ih =>
    rw [escQ]
    split <;> simp <;> omega

theorem csvField_length_ge (x : List Char) : x.length ≤ (csvField x).length := by
  rw [csvField]
  split
  · have := escQ_length_ge x
    simp
    omega
  · exact Nat.le_refl _

theorem csvRecord_length_ge :
    ∀ (fs : List (List Char)), fs ≠ [] →
      (fs.map List.length).sum + fs.length ≤ (csvRecord fs).length + 1 := by
  intro fs
  induction fs with
  | nil => intro h; exact absurd rfl h
  | cons x fs' ih =>
    intro _
    cases fs' with
    | nil =>
      rw [csvRecord]
      have := csvField_length_ge x
      simp
      omega
    | cons y fs'' =>
      rw [csvRecord]
      have h1 := csvField_length_ge x
      have h2 := ih (by simp)
      simp only [List.map_cons, List.sum_cons, List.length_cons, List.length_append] at h2 ⊢
      omega

theorem recFuel_eq (fs : List (List Char)) :
    recFuel fs = (fs.map List.length).sum + 2 * fs.length := by
  rw [recFuel]
  induction fs with
  | nil => simp
  | cons x fs' ih =>
    simp only [List.map_cons, List.sum_cons, List.length_cons] at ih ⊢
    omega

theorem fileFuel_le (rs : List (List (List Char))) (h : ∀ fs ∈ rs, fs ≠ []) :
    fileFuel rs ≤ 2 * (csvLines rs).length + 2 := by
  induction rs with
  | nil =>
    rw [fileFuel]
    simp
  | cons fs rs' ih =>
    have hff : fileFuel (fs :: rs') = recFuel fs + 1 + fileFuel rs' := by
      rw [fileFuel, fileFuel, List.map_cons, List.sum_cons]
    have hlen : (csvLines (fs :: rs')).length =
        (csvRecord fs).length + 2 + (csvLines rs').length := by
      rw [csvLines, crlf]
      simp
      omega
    have hrec := csvRecord_length_ge fs (h fs (by simp))
    have hrf := recFuel_eq fs
    have hfs1 : 1 ≤ fs.length := by
      obtain ⟨a, fs0, rfl⟩ := List.exists_cons_of_ne_nil (h fs (by simp))
      simp
    have hih := ih fun g hg => h g (List.mem_cons_of_mem fs hg)
    rw [hff, hlen]
    omega

/-- Claim C6: `save_csv` writes one header record carrying the original
header names in order, then one record per row in row order with null
cells as empty fields; re-parsing the written file returns exactly the
headers followed by the rows with null mapped to the empty string. -/
theorem export_round_trip (headers : List (List Char))
    (rows : List (List (Option (List Char))))
    (hh : headers ≠ []) (hr : ∀ r ∈ rows, r.length = headers.length) :
    parseCsv (save_csv headers rows) =
      headers :: rows.map (fun r => r.map (fun c => c.getD [])) := by
  have hnn : ∀ fs ∈ headers :: rows.map (fun r => r.map (fun c => c.getD [])), fs ≠ [] := by
    intro fs hfs
    rcases List.mem_cons.mp hfs with rfl | hfs
    · exact hh
    · obtain ⟨r, hrmem, rfl⟩ := List.mem_map.mp hfs
      have h1 := hr r hrmem
      intro hcon
      have h2 : r.length = 0 := by
        have := congrArg List.length hcon
        simpa using this
      rw [h2] at h1
      obtain ⟨a, h0, rfl⟩ := List.exists_cons_of_ne_nil hh
      simp at h1
  have hstrip : stripBom (save_csv headers rows) =
      csvLines (headers :: rows.map (fun r => r.map (fun c => c.getD []))) := by
    rw [save_csv, stripBom, if_pos (by decide)]
  rw [parseCsv]
  simp only [hstrip]
  exact parseRecs_csvLines _ _ hnn (fileFuel_le _ hnn)

/-- Witness for C6 on a concrete result set exercising the delimiter,
the quote character, an embedded CRLF, and a null cell. -/
theorem export_round_trip_witness :
    (["a".data, "b".data] : List (List Char)) ≠ []
    ∧ (∀ r ∈ [[some "x,y".data, none], [some "q\"z".data, some "w".data],
        [some "m\r\nn".data, some "t".data]], r.length = (["a".data, "b".data]).length)
    ∧ parseCsv (save_csv ["a".data, "b".data]
        [[some "x,y".data, none], [some "q\"z".data, some "w".data],
         [some "m\r\nn".data, some "t".data]]) =
      ["a".data, "b".data] ::
        ([[some "x,y".data, none], [some "q\"z".data, some "w".data],
          [some "m\r\nn".data, some "t".data]]).map (fun r => r.map (fun c => c.getD [])) := by
  refine ⟨by decide, by decide, export_round_trip _ _ (by decide) (by decide)⟩

/-- Witness for C9 on a concrete three-row result set viewed at page 1 of
size 2 (where the displayed slice is a strict part of the rows): the
export payload is the whole list and the page is unchanged. -/
theorem export_whole_result_set_witness :
    (paginateStep [10, 20, 30] 2 1 .sv).2 = some [10, 20, 30]
    ∧ (paginateStep [10, 20, 30] 2 1 .sv).1 = 1
    ∧ pageSlice [10, 20, 30] 2 1 = [30]
    ∧ (paginateStep [10, 20, 30] 2 1 .other).2 = none := by
  refine ⟨(export_whole_result_set [10, 20, 30] 2 1).1,
    (export_whole_result_set [10, 20, 30] 2 1).2.1, by decide,
    (export_whole_result_set [10, 20, 30] 2 1).2.2.2 .other (by decide)⟩
